import Mathlib

/-!
Verification of the `hermitian` repository (symbolic group-invariant
polynomials for CR-geometric hyperquadrics).

The Python source (`src/hermitian/functional.py` and `src/experiments.py`)
is shallowly embedded here:

* sympy scalar expressions are interpreted semantically, either directly in
  `ℂ` (for matrix-group computations whose inputs are concrete complex
  numbers such as roots of unity) or as functions from valuations of their
  free symbols to `ℂ` (for polynomial-building code whose inputs are opaque
  symbols);
* sympy monomials in the distinct scalar components of the vector symbols
  are interpreted by their canonical form, the exponent vector over the
  ordered list of components (sympy's structural equality on such products
  of powers coincides with equality of exponent vectors);
* sympy matrices of dynamic shape become a `rows`/`cols`/`entry` record,
  so that the shape checks of the source stay runtime checks;
* Python `assert` failures and sympy exceptions become `Except PyErr`
  results (`assertionError` for `assert`, `shapeError` for sympy's
  `ShapeError` on mismatched matrix products, `valueError` for
  `ValueError`).
-/

/-- The error kinds that the embedded Python functions can raise. -/
inductive PyErr : Type
  | assertionError : PyErr
  | shapeError : PyErr
  | valueError : PyErr
deriving DecidableEq

/-! ## Multivariate monomials (`get_multivariate_monomials`)

A monomial in the `k * dim` scalar components (the components of symbol
`i` occupy the block of positions `[dim*i, dim*(i+1))`) is represented by
its exponent vector, a `List ℕ` of length `k * dim`; the monomial `1` is
the all-zero vector and monomial multiplication is pointwise addition of
exponents.  `get_vector_component_map` in the source enforces that the
symbols are distinct (they are dict keys) with equal dimension, so the
embedding is parametrised by the number `k` of symbols and the common
dimension `dim`. -/

/-- `itertools.product` over a list of lists (first factor varies slowest,
exactly like the Python iterator order). -/
def prodList {β : Type} : List (List β) → List (List β)
  | [] => [[]]
  | xs :: rest => xs.flatMap (fun x => (prodList rest).map (fun t => x :: t))

/-- `list(itertools.product(range(0, degree + 1), repeat=dim))`: all
multiindices for one vector symbol of dimension `dim` with per-component
exponents in `[0, degree]`. -/
def multiindices (dim degree : ℕ) : List (List ℕ) :=
  prodList (List.replicate dim (List.range (degree + 1)))

/-- The univariate monomial `prod_t component[t] ^ m[t]` of symbol `i`,
as an exponent vector over all `k * dim` components. -/
def univMonomial (k dim i : ℕ) (m : List ℕ) : List ℕ :=
  List.replicate (dim * i) 0 ++ m ++ List.replicate (dim * (k - 1 - i)) 0

/-- The constant monomial `sy.Integer(1)`. -/
def monomialOne (k dim : ℕ) : List ℕ := List.replicate (k * dim) 0

/-- Product of two monomials (pointwise sum of exponent vectors). -/
def monMul (x y : List ℕ) : List ℕ := List.zipWith (fun a b => a + b) x y

/-- The inner loop of `get_multivariate_monomials`: starting from the
accumulator `multivariate_monomial`, multiply by each univariate monomial
of the tuple in turn and record every intermediate running product. -/
def running_products : List (List ℕ) → List ℕ → List (List ℕ)
  | [], _ => []
  | m :: rest, acc =>
      monMul acc m :: running_products rest (monMul acc m)

/-- `symbol_monomials_map[symb]`: all univariate monomials of symbol `i`
(one per multiindex; they are pairwise distinct, so set semantics do not
collapse anything within one symbol). -/
def symbol_monomials (k dim degree i : ℕ) : List (List ℕ) :=
  (multiindices dim degree).map (univMonomial k dim i)

/-- `get_multivariate_monomials(symbs, degree)` for `k` distinct vector
symbols of dimension `dim`: the Cartesian product of the per-symbol
monomial sets, with every running partial product accumulated into the
result set.  The Python function returns a `set`; the returned list is to
be read up to `toFinset`. -/
def get_multivariate_monomials (k dim degree : ℕ) : List (List ℕ) :=
  (prodList ((List.range k).map (symbol_monomials k dim degree))).flatMap
    (fun tup => running_products tup (monomialOne k dim))

/-- The partial running product (after `j + 1` factors) of the tuple of
univariate monomials selected by `choice` (one multiindex per symbol). -/
def partial_product (k dim : ℕ) (choice : List (List ℕ)) (j : ℕ) : List ℕ :=
  (((List.range k).map
      (fun i => univMonomial k dim i (choice.getD i []))).take (j + 1)).foldl
    monMul (monomialOne k dim)

lemma mem_prodList_of {β : Type} :
    ∀ (ls : List (List β)) (as : List β), as.length = ls.length →
      (∀ i (h1 : i < as.length) (h2 : i < ls.length),
        as.get ⟨i, h1⟩ ∈ ls.get ⟨i, h2⟩) →
      as ∈ prodList ls := by
  intro ls
  induction ls with
  | nil =>
      intro as hlen _
      have : as = [] := List.eq_nil_of_length_eq_zero hlen
      simp [this, prodList]
  | cons xs rest ih =>
      intro as hlen hmem
      cases as with
      | nil => simp at hlen
      | cons a as' =>
          have h0 : a ∈ xs := hmem 0 (by simp) (by simp)
          have ht : as' ∈ prodList rest := by
            apply ih as' (by simpa using hlen)
            intro i h1 h2
            simpa using hmem (i + 1) (by simpa using Nat.succ_lt_succ h1)
              (by simpa using Nat.succ_lt_succ h2)
          simp only [prodList, List.mem_flatMap, List.mem_map]
          exact ⟨a, h0, as', ht, rfl⟩

lemma foldl_take_mem_running_products :
    ∀ (tup : List (List ℕ)) (acc : List ℕ) (j : ℕ), j < tup.length →
      (tup.take (j + 1)).foldl monMul acc ∈ running_products tup acc := by
  intro tup
  induction tup with
  | nil => intro acc j hj; simp at hj
  | cons m rest ih =>
      intro acc j hj
      cases j with
      | zero =>
          simp [running_products]
      | succ j' =>
          have hj' : j' < rest.length := by simpa using hj
          have := ih (monMul acc m) j' hj'
          simp only [List.take_succ_cons, List.foldl_cons, running_products]
          exact List.mem_cons_of_mem _ this

lemma mem_multiindices_of (dim degree : ℕ) (m : List ℕ)
    (h1 : m.length = dim) (h2 : ∀ x ∈ m, x ≤ degree) :
    m ∈ multiindices dim degree := by
  apply mem_prodList_of
  · simp [h1]
  · intro i hi1 hi2
    rw [List.get_replicate]
    exact List.mem_range.mpr
      (Nat.lt_succ_of_le (h2 _ (List.get_mem m i hi1)))

lemma partial_product_mem (k dim degree : ℕ) (choice : List (List ℕ))
    (hlen : choice.length = k)
    (hval : ∀ m ∈ choice, m ∈ multiindices dim degree)
    (j : ℕ) (hj : j < k) :
    partial_product k dim choice j ∈ get_multivariate_monomials k dim degree := by
  have htup :
      (List.range k).map (fun i => univMonomial k dim i (choice.getD i [])) ∈
        prodList ((List.range k).map (symbol_monomials k dim degree)) := by
    apply mem_prodList_of
    · simp
    · intro i h1 h2
      have hik : i < k := by simpa using h1
      have hic : i < choice.length := by omega
      have hget :
          ((List.range k).map
            (fun i => univMonomial k dim i (choice.getD i []))).get ⟨i, h1⟩ =
            univMonomial k dim i (choice.getD i []) := by
        simp [List.get_eq_getElem]
      have hget2 :
          ((List.range k).map (symbol_monomials k dim degree)).get ⟨i, h2⟩ =
            symbol_monomials k dim degree i := by
        simp [List.get_eq_getElem]
      rw [hget, hget2]
      apply List.mem_map.mpr
      refine ⟨choice.getD i [], ?_, rfl⟩
      have : choice.getD i [] ∈ choice := by
        rw [List.getD_eq_getElem?_getD, List.getElem?_eq_getElem hic]
        exact List.getElem_mem hic
      exact hval _ this
  apply List.mem_flatMap.mpr
  refine ⟨(List.range k).map (fun i => univMonomial k dim i (choice.getD i [])),
    htup, ?_⟩
  apply foldl_take_mem_running_products
  simpa using hj

/-- Claim C2: `get_multivariate_monomials` accumulates every partial
running product of every tuple of univariate monomials (one per symbol,
exponents bounded by `degree`), and for two symbols of dimension 2 with
degree bound 1 the result is exactly the 16-element monomial set of the
spec (exponent vectors ordered as `z0, z1, w0, w1`). -/
theorem get_multivariate_monomials_partial_products :
    (∀ (k dim degree : ℕ) (choice : List (List ℕ)), choice.length = k →
      (∀ m ∈ choice, m.length = dim ∧ ∀ x ∈ m, x ≤ degree) →
      ∀ j, j < k →
        partial_product k dim choice j ∈ get_multivariate_monomials k dim degree)
    ∧ (get_multivariate_monomials 2 2 1).toFinset =
      ({[0,0,0,0], [0,0,1,0], [0,0,0,1], [1,0,0,0], [0,1,0,0],
        [0,0,1,1], [1,0,1,0], [0,1,1,0], [1,0,0,1], [0,1,0,1], [1,1,0,0],
        [1,0,1,1], [0,1,1,1], [1,1,1,0], [1,1,0,1], [1,1,1,1]} :
        Finset (List ℕ)) := by
  constructor
  · intro k dim degree choice hlen hval j hj
    exact partial_product_mem k dim degree choice hlen
      (fun m hm => mem_multiindices_of dim degree m (hval m hm).1 (hval m hm).2)
      j hj
  · decide

/-- Witness for C2 at a concrete input. -/
theorem get_multivariate_monomials_partial_products_witness :
    (([[1]] : List (List ℕ)).length = 1 ∧
      (∀ m ∈ ([[1]] : List (List ℕ)), m.length = 1 ∧ ∀ x ∈ m, x ≤ 1) ∧
      (0:ℕ) < 1) ∧
    partial_product 1 1 [[1]] 0 ∈ get_multivariate_monomials 1 1 1 :=
  ⟨⟨by decide, by decide, by decide⟩,
    get_multivariate_monomials_partial_products.1 1 1 1 [[1]] rfl
      (by decide) 0 (by decide)⟩

lemma monMul_one_one (n : ℕ) :
    monMul (List.replicate n 0) (List.replicate n 0) = List.replicate n 0 := by
  induction n with
  | zero => rfl
  | succ n ih => simpa [monMul, List.replicate_succ] using ih

lemma univMonomial_zero_of_one (k dim : ℕ) (hk : 0 < k) :
    univMonomial k dim 0 (List.replicate dim 0) = monomialOne k dim := by
  obtain ⟨k', rfl⟩ := Nat.exists_eq_succ_of_ne_zero (Nat.pos_iff_ne_zero.mp hk)
  unfold univMonomial monomialOne
  rw [Nat.mul_zero, List.replicate_zero, List.nil_append,
    ← List.replicate_add]
  congr 1
  have h1 : k' + 1 - 1 - 0 = k' := rfl
  rw [h1, Nat.succ_eq_add_one]
  ring

/-- Claim C9: for every non-empty symbol list (of identical dimension) and
every degree, the result of `get_multivariate_monomials` contains the
constant monomial `1` (the all-zero exponent vector). -/
theorem get_multivariate_monomials_contains_one (k dim degree : ℕ)
    (hk : 0 < k) :
    monomialOne k dim ∈ get_multivariate_monomials k dim degree := by
  have hmem := partial_product_mem k dim degree
    (List.replicate k (List.replicate dim 0)) (by simp)
    (fun m hm => by
      rw [List.eq_of_mem_replicate hm]
      exact mem_multiindices_of dim degree _ (by simp) (by simp))
    0 hk
  have hpp : partial_product k dim (List.replicate k (List.replicate dim 0)) 0 =
      monomialOne k dim := by
    obtain ⟨k', rfl⟩ := Nat.exists_eq_succ_of_ne_zero (Nat.pos_iff_ne_zero.mp hk)
    unfold partial_product
    rw [List.range_succ_eq_map]
    simp only [List.map_cons, List.take_succ_cons, List.take_zero,
      List.foldl_cons, List.foldl_nil]
    rw [List.replicate_succ, List.getD_cons_zero]
    rw [univMonomial_zero_of_one _ _ (Nat.succ_pos k')]
    exact monMul_one_one _
  rw [← hpp]
  exact hmem

/-- Witness for C9 at a concrete input. -/
theorem get_multivariate_monomials_contains_one_witness :
    (0:ℕ) < 1 ∧ monomialOne 1 1 ∈ get_multivariate_monomials 1 1 1 :=
  ⟨by decide, get_multivariate_monomials_contains_one 1 1 1 (by decide)⟩

/-! ## Matrices of dynamic shape

sympy matrices carry their shape at runtime, and the source checks shapes
with `assert`s; a matrix is embedded as a `rows`/`cols`/`entry` record.
Only the entries `entry i j` with `i < rows`, `j < cols` are meaningful,
and sympy's structural equality of matrices is `Mat.eqv` (same shape and
same in-range entries). -/

structure Mat (α : Type) where
  rows : ℕ
  cols : ℕ
  entry : ℕ → ℕ → α

/-- sympy `==` on matrices: same shape and equal in-range entries. -/
def Mat.eqv {α : Type} (A B : Mat α) : Prop :=
  A.rows = B.rows ∧ A.cols = B.cols ∧
    ∀ i j, i < A.rows → j < A.cols → A.entry i j = B.entry i j

/-- `sy.Identity(n)`. -/
def matEye {α : Type} [Zero α] [One α] (n : ℕ) : Mat α :=
  ⟨n, n, fun i j => if j = i then 1 else 0⟩

/-- The diagonal matrix with diagonal entries `d 0, ..., d (n-1)`. -/
def diagM {α : Type} [Zero α] (n : ℕ) (d : ℕ → α) : Mat α :=
  ⟨n, n, fun i j => if j = i then d i else 0⟩

/-- `sy.physics.quantum.dagger.Dagger`: conjugate transpose. -/
def matDagger {α : Type} [Star α] (A : Mat α) : Mat α :=
  ⟨A.cols, A.rows, fun i j => star (A.entry j i)⟩

/-- Matrix multiplication; sympy raises `ShapeError` when the inner
dimensions disagree. -/
def matMul {α : Type} [CommRing α] (A B : Mat α) : Except PyErr (Mat α) :=
  if A.cols = B.rows then
    .ok ⟨A.rows, B.cols,
      fun i j => ∑ t ∈ Finset.range A.cols, A.entry i t * B.entry t j⟩
  else .error .shapeError

/-- `m ** j` for a sympy matrix (`m ** 0` is the identity; the source only
takes powers of the square generator matrix). -/
def matPow {α : Type} [CommRing α] (m : Mat α) : ℕ → Except PyErr (Mat α)
  | 0 => .ok (matEye m.rows)
  | j + 1 => do
      let prev ← matPow m j
      matMul prev m

/-- The `for j in range(p): elements.append(s ** j)` loop of
`get_type_iii_gamma`. -/
def powList {α : Type} [CommRing α] (s : Mat α) : ℕ → Except PyErr (List (Mat α))
  | 0 => .ok []
  | p + 1 => do
      let prev ← powList s p
      let g ← matPow s p
      .ok (prev ++ [g])

/-- `get_type_iii_gamma(a, b, p, q, omega)`: after `assert a + b == len(q)`,
the row-building loop (`row[j] = omega ** q[j]`, zeros elsewhere) produces
exactly the diagonal matrix `diagM (a+b) (fun j => ω ^ q[j])` (so the
`assert s.is_square` always holds), and the elements are its powers
`s ** 0, ..., s ** (p-1)`.  Exponents are taken in `ℕ`; every specified
input has `q` entries in `[1, p-1]`. -/
def get_type_iii_gamma {α : Type} [CommRing α] (a b p : ℕ) (q : List ℕ)
    (ω : α) : Except PyErr (List (Mat α)) :=
  if a + b = q.length then
    powList (diagM (a + b) (fun j => ω ^ q.getD j 0)) p
  else .error .assertionError

/-- `get_I_ab(a, b)`: `assert n > 0`, then the generalized identity.
Note the source returns `+Identity(b)` (not `-Identity(b)`) in its
`a == 0` branch. -/
def get_I_ab {α : Type} [CommRing α] (a b : ℕ) : Except PyErr (Mat α) :=
  if a + b = 0 then .error .assertionError
  else if a = 0 then .ok (matEye b)
  else if b = 0 then .ok (matEye a)
  else .ok ⟨a + b, a + b,
    fun i j => if j = i then (if i < a then 1 else -1) else 0⟩

/-- `is_in_SU_AB(matrix, a, b)`: the matrix is square of size `a + b` and
`Dagger(matrix) * I_ab * matrix == I_ab` (sympy's structural equality,
i.e. `Mat.eqv`).  Matrix equality over `ℂ` is not decidable, so the check
is a `Prop`. -/
def is_in_SU_AB {α : Type} [CommRing α] [StarRing α] (m : Mat α)
    (a b : ℕ) : Prop :=
  m.rows = m.cols ∧ m.rows = a + b ∧
    ∃ Iab r, get_I_ab a b = .ok Iab ∧
      ((matMul (matDagger m) Iab).bind (fun x => matMul x m)) = .ok r ∧
      Mat.eqv r Iab

/-- `get_hyperquadric_hermitian_inner_product(z, w, a, b)`:
`assert shape(z) == shape(w)`, `assert shape(z)[1] == 1`,
`assert n == a + b`, then the two accumulation loops
(`result += z_j * conj(w_j)` for `j < a`, `result -= ...` for
`a <= j < a + b`).  The `len(shape) == 2` `ValueError` cannot fire in this
embedding because `Mat` is always two-dimensional. -/
def get_hyperquadric_hermitian_inner_product {α : Type} [CommRing α]
    [StarRing α] (z w : Mat α) (a b : ℕ) : Except PyErr α :=
  if z.rows = w.rows ∧ z.cols = w.cols then
    if z.cols = 1 then
      if z.rows = a + b then
        .ok ((List.range' a b).foldl
          (fun acc j => acc - z.entry j 0 * star (w.entry j 0))
          ((List.range a).foldl
            (fun acc j => acc + z.entry j 0 * star (w.entry j 0)) 0))
      else .error .assertionError
    else .error .assertionError
  else .error .assertionError

/-- The `assert` prefix shared by `get_phi_gamma_product` and
`get_phi_gamma_product_polarized`: the group is non-empty and its FIRST
element (`e = group[0]`) is a square matrix of size `a + b`. -/
def phi_gamma_preconditions {α : Type} (group : List (Mat α))
    (a b : ℕ) : Bool :=
  match group with
  | [] => false
  | e :: _ => (e.rows == e.cols) && (e.rows == a + b)

/-- `get_phi_gamma_product(z, group, a, b)`:
`Product_{gamma in group} (1 - <gamma*z, z>_{a,b})` after the assertion
prefix. -/
def get_phi_gamma_product {α : Type} [CommRing α] [StarRing α] (z : Mat α)
    (group : List (Mat α)) (a b : ℕ) : Except PyErr α :=
  if phi_gamma_preconditions group a b then
    group.foldlM (fun acc γ => do
      let gz ← matMul γ z
      let ip ← get_hyperquadric_hermitian_inner_product gz z a b
      .ok (acc * (1 - ip))) 1
  else .error .assertionError

/-- `get_phi_gamma_product_polarized(z, w, group, a, b)`:
`Product_{gamma in group} (1 - <gamma*z, w>_{a,b})` after the same
assertion prefix. -/
def get_phi_gamma_product_polarized {α : Type} [CommRing α] [StarRing α]
    (z w : Mat α) (group : List (Mat α)) (a b : ℕ) : Except PyErr α :=
  if phi_gamma_preconditions group a b then
    group.foldlM (fun acc γ => do
      let gz ← matMul γ z
      let ip ← get_hyperquadric_hermitian_inner_product gz w a b
      .ok (acc * (1 - ip))) 1
  else .error .assertionError

/-- `get_coprime_set(modulo)`: `[num for num in range(1, modulo) if
gcd(num, modulo) == 1]`. -/
def get_coprime_set (modulo : ℕ) : List ℕ :=
  (List.range' 1 (modulo - 1)).filter (fun num => Nat.gcd num modulo == 1)

/-- `get_primitive_pth_roots_of_unity(p)`: `exp((2 * k * pi * I) / p)` for
each `k` in the coprime set of `p`. -/
noncomputable def get_primitive_pth_roots_of_unity (p : ℕ) : List ℂ :=
  (get_coprime_set p).map
    (fun (t : ℕ) =>
      Complex.exp ((2 * (t : ℂ) * (Real.pi : ℂ) * Complex.I) / (p : ℂ)))

/-! ## Claim C4: the indefinite inner product -/

lemma matPow_diag {α : Type} [CommRing α] (n : ℕ) (d : ℕ → α) :
    ∀ j : ℕ, ∃ m, matPow (diagM n d) j = .ok m ∧ m.rows = n ∧ m.cols = n ∧
      ∀ i i2, i < n → i2 < n →
        m.entry i i2 = if i2 = i then d i ^ j else 0 := by
  intro j
  induction j with
  | zero =>
      refine ⟨matEye n, rfl, rfl, rfl, ?_⟩
      intro i i2 _ _
      simp [matEye]
  | succ j ih =>
      obtain ⟨m, hm, hr, hc, he⟩ := ih
      refine ⟨⟨m.rows, (diagM n d).cols,
        fun i i2 => ∑ t ∈ Finset.range m.cols,
          m.entry i t * (diagM n d).entry t i2⟩, ?_, hr, rfl, ?_⟩
      · show matPow (diagM n d) (j + 1) = _
        rw [matPow, hm]
        show matMul m (diagM n d) = _
        unfold matMul
        rw [if_pos (by rw [hc]; rfl)]
      · intro i i2 hi hi2
        show (∑ t ∈ Finset.range m.cols, m.entry i t * (diagM n d).entry t i2)
          = _
        rw [hc]
        rw [Finset.sum_eq_single i]
        · rw [he i i hi hi, if_pos rfl]
          show d i ^ j * (if i2 = i then d i else 0) = _
          by_cases hii : i2 = i
          · rw [if_pos hii, if_pos hii, pow_succ]
          · rw [if_neg hii, if_neg hii, mul_zero]
        · intro t ht htne
          rw [he i t hi (Finset.mem_range.mp ht), if_neg htne, zero_mul]
        · intro habs
          exact absurd (Finset.mem_range.mpr hi) habs

lemma powList_diag {α : Type} [CommRing α] (n : ℕ) (d : ℕ → α) :
    ∀ p : ℕ, ∃ l, powList (diagM n d) p = .ok l ∧ l.length = p ∧
      ∀ j (hj : j < l.length),
        matPow (diagM n d) j = .ok (l.get ⟨j, hj⟩) := by
  intro p
  induction p with
  | zero => exact ⟨[], rfl, rfl, fun j hj => by simp at hj⟩
  | succ p ih =>
      obtain ⟨l, hl, hlen, hget⟩ := ih
      obtain ⟨m, hm, _, _, _⟩ := matPow_diag n d p
      refine ⟨l ++ [m], ?_, by simp [hlen], ?_⟩
      · rw [powList, hl]
        show (matPow (diagM n d) p).bind _ = _
        rw [hm]
        rfl
      · intro j hj
        have hj2 : j < l.length + 1 := by simpa [hlen] using hj
        rcases Nat.lt_or_ge j l.length with hlt | hge
        · rw [List.get_eq_getElem, List.getElem_append_left hlt]
          rw [← List.get_eq_getElem l ⟨j, hlt⟩]
          exact hget j hlt
        · have hjl : j = l.length := by omega
          rw [List.get_eq_getElem, List.getElem_append_right hge]
          subst hjl
          simp only [Nat.sub_self, List.getElem_cons_zero]
          rw [← hlen] at hm
          exact hm

/-- Claim C3: for `len(q) = a + b`, `get_type_iii_gamma` returns exactly
`p` matrices, the `j`-th being `S ** j` for the diagonal generator `S`
with `S_jj = omega ^ q[j]` (so the `j`-th element is the diagonal matrix
of `j`-th powers), element 0 being the identity; for `len(q) != a + b` it
fails the `assert`. -/
theorem get_type_iii_gamma_group_closure (a b p : ℕ) (q : List ℕ) (ω : ℂ) :
    (q.length ≠ a + b →
      get_type_iii_gamma a b p q ω = .error .assertionError)
    ∧ (q.length = a + b →
      ∃ l, get_type_iii_gamma a b p q ω = .ok l ∧ l.length = p ∧
        (∀ j (hj : j < l.length),
          Mat.eqv (l.get ⟨j, hj⟩)
            (diagM (a + b) (fun i => (ω ^ q.getD i 0) ^ j)))
        ∧ ∀ h0 : 0 < l.length,
            Mat.eqv (l.get ⟨0, h0⟩) (matEye (a + b))) := by
  constructor
  · intro hne
    unfold get_type_iii_gamma
    rw [if_neg (fun hc => hne hc.symm)]
  · intro heq
    unfold get_type_iii_gamma
    rw [if_pos heq.symm]
    obtain ⟨l, hl, hlen, hget⟩ := powList_diag (a + b) (fun j => ω ^ q.getD j 0) p
    refine ⟨l, hl, hlen, ?_, ?_⟩
    · intro j hj
      obtain ⟨m, hm, hr, hc, he⟩ := matPow_diag (a + b) (fun j => ω ^ q.getD j 0) j
      have : l.get ⟨j, hj⟩ = m := by
        have := hget j hj
        rw [hm] at this
        exact (Except.ok.inj this).symm
      rw [this]
      refine ⟨by rw [hr]; rfl, by rw [hc]; rfl, fun i i2 hi hi2 => ?_⟩
      rw [he i i2 (by rwa [hr] at hi) (by rwa [hc] at hi2)]
      rfl
    · intro h0
      obtain ⟨m, hm, hr, hc, he⟩ := matPow_diag (a + b) (fun j => ω ^ q.getD j 0) 0
      have : l.get ⟨0, h0⟩ = m := by
        have := hget 0 h0
        rw [hm] at this
        exact (Except.ok.inj this).symm
      rw [this]
      refine ⟨hr, by rw [hc]; rfl, fun i i2 hi hi2 => ?_⟩
      rw [he i i2 (by rwa [hr] at hi) (by rwa [hc] at hi2)]
      simp [matEye]

/-- Witness for C3 at a concrete input. -/
theorem get_type_iii_gamma_group_closure_witness :
    ([1, 1] : List ℕ).length = 1 + 1 ∧
    (∃ l, get_type_iii_gamma 1 1 2 [1, 1] Complex.I = .ok l ∧ l.length = 2 ∧
      (∀ j (hj : j < l.length),
        Mat.eqv (l.get ⟨j, hj⟩)
          (diagM (1 + 1) (fun i => (Complex.I ^ ([1, 1] : List ℕ).getD i 0) ^ j)))
      ∧ ∀ h0 : 0 < l.length,
          Mat.eqv (l.get ⟨0, h0⟩) (matEye (1 + 1))) :=
  ⟨rfl, (get_type_iii_gamma_group_closure 1 1 2 [1, 1] Complex.I).2 rfl⟩

/-! ## Claim C5: the group lies in SU(a, b) -/

/-- A matrix is, on its meaningful `n × n` range, the diagonal matrix with
diagonal `e`. -/
def IsDiagIR {α : Type} [Zero α] (n : ℕ) (e : ℕ → α) (M : Mat α) : Prop :=
  M.rows = n ∧ M.cols = n ∧
    ∀ i j, i < n → j < n → M.entry i j = if j = i then e i else 0

lemma matMul_diagIR {α : Type} [CommRing α] {n : ℕ} {e1 e2 : ℕ → α}
    {A B : Mat α} (hA : IsDiagIR n e1 A) (hB : IsDiagIR n e2 B) :
    ∃ C, matMul A B = .ok C ∧ IsDiagIR n (fun i => e1 i * e2 i) C := by
  obtain ⟨hAr, hAc, hAe⟩ := hA
  obtain ⟨hBr, hBc, hBe⟩ := hB
  refine ⟨⟨A.rows, B.cols,
    fun i j => ∑ t ∈ Finset.range A.cols, A.entry i t * B.entry t j⟩,
    ?_, by simpa using hAr, by simpa using hBc, ?_⟩
  · unfold matMul
    rw [if_pos (by rw [hAc, hBr])]
  · intro i j hi hj
    show (∑ t ∈ Finset.range A.cols, A.entry i t * B.entry t j) = _
    rw [hAc]
    rw [Finset.sum_eq_single i]
    · rw [hAe i i hi hi, if_pos rfl, hBe i j hi hj]
      by_cases hji : j = i
      · rw [if_pos hji, if_pos hji]
      · rw [if_neg hji, if_neg hji, mul_zero]
    · intro t ht htne
      rw [hAe i t hi (Finset.mem_range.mp ht), if_neg htne, zero_mul]
    · intro habs
      exact absurd (Finset.mem_range.mpr hi) habs

lemma matDagger_diagIR {α : Type} [CommRing α] [StarRing α] {n : ℕ}
    {e : ℕ → α} {M : Mat α} (hM : IsDiagIR n e M) :
    IsDiagIR n (fun i => star (e i)) (matDagger M) := by
  obtain ⟨hr, hc, he⟩ := hM
  refine ⟨by simpa using hc, by simpa using hr, ?_⟩
  intro i j hi hj
  show star (M.entry j i) = _
  rw [he j i hj hi]
  by_cases hij : i = j
  · subst hij
    rw [if_pos rfl, if_pos rfl]
  · rw [if_neg hij, if_neg (fun hji => hij hji.symm), star_zero]

lemma get_I_ab_diag {α : Type} [CommRing α] (a b : ℕ) (h : 0 < a + b) :
    ∃ (Iab : Mat α) (e : ℕ → α),
      get_I_ab a b = .ok Iab ∧ IsDiagIR (a + b) e Iab := by
  unfold get_I_ab
  rw [if_neg (by omega)]
  by_cases ha : a = 0
  · subst ha
    rw [if_pos rfl]
    exact ⟨matEye b, fun _ => 1, rfl, by simp [matEye], by simp [matEye],
      fun i j _ _ => rfl⟩
  · rw [if_neg ha]
    by_cases hb : b = 0
    · subst hb
      rw [if_pos rfl]
      exact ⟨matEye a, fun _ => 1, rfl, by simp [matEye], by simp [matEye],
        fun i j _ _ => rfl⟩
    · rw [if_neg hb]
      exact ⟨_, fun i => if i < a then 1 else -1, rfl, rfl, rfl,
        fun i j _ _ => rfl⟩

lemma star_mul_self_of_primitive_root (p : ℕ) (ω : ℂ)
    (hω : ω ∈ get_primitive_pth_roots_of_unity p) : star ω * ω = 1 := by
  obtain ⟨t, _, rfl⟩ := List.mem_map.mp hω
  rw [Complex.star_def, ← Complex.exp_conj]
  have hconj :
      (starRingEnd ℂ) ((2 * (t : ℂ) * (Real.pi : ℂ) * Complex.I) / (p : ℂ)) =
      -((2 * (t : ℂ) * (Real.pi : ℂ) * Complex.I) / (p : ℂ)) := by
    rw [map_div₀]
    simp only [map_mul, Complex.conj_I, Complex.conj_ofReal, map_natCast,
      map_ofNat]
    ring
  rw [hconj, ← Complex.exp_add]
  simp

/-- Claim C5 (amended): for valid parameters with `a + b = len(q)` at
least 1 (`is_in_SU_AB` is only defined for `n > 0`, since `get_I_ab`
asserts `n > 0`), `p >= 1`, `q` entries in `[1, p-1]`, and every
primitive `p`-th root of unity `omega`, every element of the generated
group satisfies `is_in_SU_AB(gamma, a, b)`.  For `a + b = 0`, which the
unamended claim admits, the check fails instead of holding (see the
degenerate instance below). -/
theorem get_type_iii_gamma_in_SU_AB (a b p : ℕ) (q : List ℕ) (ω : ℂ)
    (hn : 0 < a + b) (hlen : q.length = a + b) (hp : 1 ≤ p)
    (hq : ∀ x ∈ q, 1 ≤ x ∧ x ≤ p - 1)
    (hω : ω ∈ get_primitive_pth_roots_of_unity p) :
    ∀ l, get_type_iii_gamma a b p q ω = .ok l →
      ∀ m ∈ l, is_in_SU_AB m a b := by
  intro l hl m hm
  have hsω : star ω * ω = 1 := star_mul_self_of_primitive_root p ω hω
  unfold get_type_iii_gamma at hl
  rw [if_pos hlen.symm] at hl
  obtain ⟨l', hl', hlen', hget⟩ :=
    powList_diag (a + b) (fun j => ω ^ q.getD j 0) p
  rw [hl'] at hl
  have hll : l' = l := Except.ok.inj hl
  subst hll
  obtain ⟨⟨j, hj⟩, rfl⟩ := List.mem_iff_get.mp hm
  obtain ⟨mm, hmm, hr, hc, he⟩ :=
    matPow_diag (a + b) (fun j => ω ^ q.getD j 0) j
  have hm_eq : l'.get ⟨j, hj⟩ = mm := by
    have h1 := hget j hj
    rw [hmm] at h1
    exact (Except.ok.inj h1).symm
  rw [hm_eq]
  have hDstar : ∀ i, star ((ω ^ q.getD i 0) ^ j) * ((ω ^ q.getD i 0) ^ j) = 1 := by
    intro i
    rw [star_pow, star_pow, ← mul_pow, ← mul_pow, hsω, one_pow, one_pow]
  have hmmdiag : IsDiagIR (a + b) (fun i => (ω ^ q.getD i 0) ^ j) mm :=
    ⟨hr, hc, he⟩
  obtain ⟨Iab, e, hIab, hIdiag⟩ := get_I_ab_diag (α := ℂ) a b hn
  obtain ⟨X, hX, hXdiag⟩ := matMul_diagIR (matDagger_diagIR hmmdiag) hIdiag
  obtain ⟨R, hR, hRdiag⟩ := matMul_diagIR hXdiag hmmdiag
  refine ⟨by rw [hr, hc], by rw [hr], Iab, R, hIab, ?_, ?_⟩
  · rw [hX]
    exact hR
  · obtain ⟨hRr, hRc, hRe⟩ := hRdiag
    obtain ⟨hIr, hIc, hIe⟩ := hIdiag
    refine ⟨by rw [hRr, hIr], by rw [hRc, hIc], ?_⟩
    intro i i2 hi hi2
    have hi' : i < a + b := by rwa [hRr] at hi
    have hi2' : i2 < a + b := by rwa [hRc] at hi2
    rw [hRe i i2 hi' hi2', hIe i i2 hi' hi2']
    by_cases hii : i2 = i
    · rw [if_pos hii, if_pos hii]
      have hcomm : star ((ω ^ q.getD i 0) ^ j) * e i * (ω ^ q.getD i 0) ^ j =
          e i * (star ((ω ^ q.getD i 0) ^ j) * (ω ^ q.getD i 0) ^ j) := by
        ring
      show star ((ω ^ q.getD i 0) ^ j) * e i * (ω ^ q.getD i 0) ^ j = e i
      rw [hcomm, hDstar i, mul_one]
    · rw [if_neg hii, if_neg hii]

/-- The first primitive square root of unity, `exp(2 * 1 * pi * I / 2)`. -/
noncomputable def omegaOneHalf : ℂ :=
  Complex.exp ((2 * ((1 : ℕ) : ℂ) * (Real.pi : ℂ) * Complex.I) / ((2 : ℕ) : ℂ))

lemma roots_two : get_primitive_pth_roots_of_unity 2 = [omegaOneHalf] := rfl

/-- Counterexample to C5 as stated: the claim's validity conditions admit
the degenerate tuple `a = b = 0`, `q = ()`, `p = 2` with the primitive
root `exp(2*1*pi*I/2)`.  The generator succeeds and returns two 0×0
matrices, but `is_in_SU_AB(gamma, 0, 0)` does not hold for them: in the
source the call raises `AssertionError`, because `get_I_ab` asserts
`n > 0` (in this embedding `get_I_ab 0 0` is the assertion-error value,
so the membership proposition is false). -/
theorem get_type_iii_gamma_in_SU_AB_degenerate :
    (([] : List ℕ).length = 0 + 0 ∧ 1 ≤ 2 ∧
      (∀ x ∈ ([] : List ℕ), 1 ≤ x ∧ x ≤ 2 - 1) ∧
      omegaOneHalf ∈ get_primitive_pth_roots_of_unity 2) ∧
    ∃ l, get_type_iii_gamma 0 0 2 [] omegaOneHalf = .ok l ∧
      ∃ m ∈ l, ¬ is_in_SU_AB m 0 0 := by
  refine ⟨⟨rfl, by decide, by decide,
    by rw [roots_two]; exact List.mem_singleton.mpr rfl⟩, ?_⟩
  obtain ⟨l, hl, hlen, -⟩ :=
    powList_diag (0 + 0)
      (fun j => omegaOneHalf ^ (([] : List ℕ).getD j 0)) 2
  refine ⟨l, ?_, ?_⟩
  · unfold get_type_iii_gamma
    rw [if_pos (show (0 + 0 : ℕ) = ([] : List ℕ).length from rfl)]
    exact hl
  · have h0 : 0 < l.length := by rw [hlen]; decide
    refine ⟨l.get ⟨0, h0⟩, List.get_mem l 0 h0, ?_⟩
    intro hsu
    unfold is_in_SU_AB at hsu
    obtain ⟨-, -, Iab, r, hIab, -⟩ := hsu
    have hI : (get_I_ab 0 0 : Except PyErr (Mat ℂ)) =
        .error .assertionError := rfl
    rw [hI] at hIab
    exact Except.noConfusion hIab

/-- Witness for C5 at a concrete input. -/
theorem get_type_iii_gamma_in_SU_AB_witness :
    (0 < 1 + 0 ∧ ([1] : List ℕ).length = 1 + 0 ∧ 1 ≤ 2 ∧
      (∀ x ∈ ([1] : List ℕ), 1 ≤ x ∧ x ≤ 2 - 1) ∧
      omegaOneHalf ∈ get_primitive_pth_roots_of_unity 2) ∧
    ∀ l, get_type_iii_gamma 1 0 2 [1] omegaOneHalf = .ok l →
      ∀ m ∈ l, is_in_SU_AB m 1 0 :=
  have hmem : omegaOneHalf ∈ get_primitive_pth_roots_of_unity 2 := by
    rw [roots_two]
    exact List.mem_singleton.mpr rfl
  ⟨⟨by decide, by decide, by decide, by decide, hmem⟩,
    get_type_iii_gamma_in_SU_AB 1 0 2 [1] omegaOneHalf (by decide) (by decide)
      (by decide) (by decide) hmem⟩

/-! ## Claim C6: the assertion prefix of the invariant-polynomial builders

The `assert` prefix of `get_phi_gamma_product` and
`get_phi_gamma_product_polarized` inspects only `group[0]`.  A later group
element of the wrong size slips past the checks; the failure it eventually
causes is sympy's `ShapeError` inside the product loop, not an
`AssertionError` from the prefix.  Integer matrices are legitimate
`sy.ImmutableMatrix` inputs, so the counterexample is run over `ℤ`. -/

/-- A concrete 2×1 integer column vector. -/
def colZ : Mat ℤ := ⟨2, 1, fun _ _ => 1⟩

/-- The 2×2 integer identity. -/
def eyeTwoZ : Mat ℤ := matEye 2

/-- The 3×3 integer identity (not of size `a + b = 2`). -/
def eyeThreeZ : Mat ℤ := matEye 3

/-- Counterexample to C6 as stated: the group `[I_2, I_3]` contains an
element that is not a square matrix of size `a + b = 2`, yet the assertion
prefix passes, and the builders fail later with a `ShapeError` from the
product loop rather than with the claimed contract violation. -/
theorem phi_gamma_preconditions_miss_bad_tail :
    phi_gamma_preconditions [eyeTwoZ, eyeThreeZ] 1 1 = true
    ∧ eyeThreeZ ∈ [eyeTwoZ, eyeThreeZ]
    ∧ eyeThreeZ.rows ≠ 1 + 1
    ∧ get_phi_gamma_product colZ [eyeTwoZ, eyeThreeZ] 1 1 =
        .error .shapeError
    ∧ get_phi_gamma_product_polarized colZ colZ [eyeTwoZ, eyeThreeZ] 1 1 =
        .error .shapeError :=
  ⟨rfl, List.mem_cons_of_mem _ (List.mem_singleton.mpr rfl), by decide,
    rfl, rfl⟩

/-- Claim C6 (amended): before computing the orbit product, both builders
check only that the group is non-empty and that its FIRST element is a
square matrix of size `a + b`, failing with a contract violation exactly
when that check on the head fails. -/
theorem phi_gamma_preconditions_first_element_only {α : Type} [CommRing α]
    [StarRing α] (z w : Mat α) (group : List (Mat α)) (a b : ℕ) :
    (phi_gamma_preconditions group a b = true ↔
      ∃ e rest, group = e :: rest ∧ e.rows = e.cols ∧ e.rows = a + b)
    ∧ (phi_gamma_preconditions group a b = false →
        get_phi_gamma_product z group a b = .error .assertionError ∧
        get_phi_gamma_product_polarized z w group a b =
          .error .assertionError) := by
  constructor
  · cases group with
    | nil =>
        simp [phi_gamma_preconditions]
    | cons e rest =>
        simp only [phi_gamma_preconditions, Bool.and_eq_true, beq_iff_eq]
        constructor
        · intro ⟨h1, h2⟩
          exact ⟨e, rest, rfl, h1, h2⟩
        · intro ⟨e', rest', heq, h1, h2⟩
          obtain ⟨rfl, rfl⟩ : e = e' ∧ rest = rest' := by
            constructor <;> [exact (List.cons.inj heq).1;
              exact (List.cons.inj heq).2]
          exact ⟨h1, h2⟩
  · intro h
    constructor
    · simp [get_phi_gamma_product, h]
    · simp [get_phi_gamma_product_polarized, h]

/-- Witness for the amended C6 at a concrete input (the empty group). -/
theorem phi_gamma_preconditions_first_element_only_witness :
    phi_gamma_preconditions ([] : List (Mat ℤ)) 1 1 = false ∧
    get_phi_gamma_product colZ ([] : List (Mat ℤ)) 1 1 =
      .error .assertionError ∧
    get_phi_gamma_product_polarized colZ colZ ([] : List (Mat ℤ)) 1 1 =
      .error .assertionError :=
  ⟨rfl,
    (phi_gamma_preconditions_first_element_only colZ colZ [] 1 1).2 rfl⟩

/-! ## Claim C8: the fuzzing driver

`run_experiment_with_fuzzed_parameters_a_b_p_q` takes Python `int`s,
modeled as `ℤ`.  The experiment callback is pure in this embedding: the
function returns the list of `(a, b, p, q)` tuples passed to the callback,
in iteration order (except that the `q`-combinations of one `(n, p)` pair
are enumerated by `sublistsLen`, which produces the same strictly
increasing combinations as `itertools.combinations`, in a different
order).  The inner `assert n <= p - 1` always holds because `p` starts at
`n + 1`. -/

/-- Python `range(lo, hi)` over integers. -/
def pythonRange (lo hi : ℤ) : List ℤ :=
  (List.range (hi - lo).toNat).map (fun (i : ℕ) => lo + (i : ℤ))

/-- The inner iteration `for p in range(n + 1, max_p + 1)`. -/
def pIter (n max_p : ℤ) : List ℤ := pythonRange (n + 1) (max_p + 1)

/-- `run_experiment_with_fuzzed_parameters_a_b_p_q`: `assert max_n - 1 <=
max_p`, then the nested iteration over `n`, `a` (with `b = n - a`), `p`
and the `n`-combinations `q` of `{1, ..., p-1}`. -/
def run_experiment_with_fuzzed_parameters_a_b_p_q
    (max_n max_p min_a min_b : ℤ) : Option (List (ℤ × ℤ × ℤ × List ℤ)) :=
  if max_n - 1 ≤ max_p then
    some ((pythonRange 1 (max_n + 1)).flatMap (fun n =>
      (pythonRange min_a (n + 1 - min_b)).flatMap (fun a =>
        (pIter n max_p).flatMap (fun p =>
          ((pythonRange 1 p).sublistsLen n.toNat).map (fun q =>
            (a, n - a, p, q))))))
  else none

/-- Counterexample to C8 as stated: with `max_n = 2`, `max_p = 2` the
precondition `max_n - 1 <= max_p` holds (the driver runs), yet the outer
loop reaches `n = 2` whose `p`-iteration `range(3, 3)` is empty, so not
every `n` has a valid `p`. -/
theorem run_experiment_fuzzed_parameters_gap :
    (2 : ℤ) - 1 ≤ 2
    ∧ (run_experiment_with_fuzzed_parameters_a_b_p_q 2 2 0 0).isSome = true
    ∧ (1 : ℤ) ≤ 2 ∧ (2 : ℤ) ≤ 2 ∧ pIter 2 2 = [] := by
  refine ⟨by decide, ?_, by decide, by decide, by decide⟩
  rw [run_experiment_with_fuzzed_parameters_a_b_p_q, if_pos (by decide)]
  rfl

/-- Claim C8 (amended): the driver fails its assertion exactly when
`max_n - 1 > max_p`; the stronger condition `max_n < max_p` (not the
assertion itself) guarantees that the `p`-iteration is non-empty for every
`n` from 1 to `max_n`. -/
theorem run_experiment_fuzzed_parameters_spec
    (max_n max_p min_a min_b : ℤ) :
    (run_experiment_with_fuzzed_parameters_a_b_p_q max_n max_p min_a min_b
        = none ↔ max_p < max_n - 1)
    ∧ (max_n < max_p →
        ∀ n : ℤ, 1 ≤ n → n ≤ max_n → pIter n max_p ≠ []) := by
  constructor
  · unfold run_experiment_with_fuzzed_parameters_a_b_p_q
    by_cases h : max_n - 1 ≤ max_p
    · rw [if_pos h]
      simp
      omega
    · rw [if_neg h]
      simp
      omega
  · intro h n h1 h2 hemp
    have hc := congrArg List.length hemp
    rw [pIter, pythonRange, List.length_map, List.length_range,
      List.length_nil] at hc
    omega

/-- Witness for the amended C8 at a concrete input. -/
theorem run_experiment_fuzzed_parameters_spec_witness :
    (2 : ℤ) < 3
    ∧ (∀ n : ℤ, 1 ≤ n → n ≤ 2 → pIter n 3 ≠ [])
    ∧ (run_experiment_with_fuzzed_parameters_a_b_p_q 2 3 0 0 = none ↔
        (3 : ℤ) < 2 - 1) :=
  ⟨by decide,
    (run_experiment_fuzzed_parameters_spec 2 3 0 0).2 (by decide),
    (run_experiment_fuzzed_parameters_spec 2 3 0 0).1⟩

/-! ## Symbolic expressions as valuation semantics

A sympy scalar expression in named scalar symbols is interpreted as the
function from symbol valuations to its complex value.  Pointwise star is
exactly `sy.conjugate` under this interpretation. -/

/-- A symbolic scalar expression: a function of the valuation of its free
symbols. -/
def ExprC : Type := (String → ℂ) → ℂ

instance : CommRing ExprC := inferInstanceAs (CommRing ((String → ℂ) → ℂ))

instance : StarRing ExprC := inferInstanceAs (StarRing ((String → ℂ) → ℂ))

/-- A named scalar symbol. -/
def symC (s : String) : ExprC := fun v => v s

/-- A constant expression (e.g. a root of unity supplied to the group
generator). -/
def constE (c : ℂ) : ExprC := fun _ => c

/-- `sy.conjugate` on expressions. -/
def conjC (e : ExprC) : ExprC := fun v => (starRingEnd ℂ) (e v)

/-- `e.subs(x, r)`: substitute the expression `r` for every occurrence of
the symbol `x`, including occurrences under `conjugate`. -/
def subsC (e : ExprC) (x : String) (r : ExprC) : ExprC :=
  fun v => e (fun s => if s = x then r v else v s)

/-! ## Claim C10: primitive roots and the assertion in `get_phi_gamma_z` -/

/-- `get_phi_gamma_z(a, b, p, q)` (the polynomial component and the column
vector `z = sy.Matrix(MatrixSymbol("z", a+b, 1))`, whose entries are the
scalar symbols `z_j`): `assert len(primitive_roots) > 0`, use the first
primitive root, generate the group, build the invariant product. -/
noncomputable def get_phi_gamma_z (a b p : ℕ) (q : List ℕ) :
    Except PyErr (ExprC × Mat ExprC) :=
  let z : Mat ExprC := ⟨a + b, 1, fun j _ => symC ("z_" ++ toString j)⟩
  match get_primitive_pth_roots_of_unity p with
  | [] => .error .assertionError
  | ω :: _ => do
      let group ← get_type_iii_gamma a b p q (constE ω)
      let phi ← get_phi_gamma_product z group a b
      .ok (phi, z)

/-- `get_phi_gamma_z_w_polarized(a, b, p, q)`: same, with an independent
vector `w` and the polarized product; the final `sy.simplify` preserves
the semantic value, so it is the identity in this interpretation. -/
noncomputable def get_phi_gamma_z_w_polarized (a b p : ℕ) (q : List ℕ) :
    Except PyErr (ExprC × Mat ExprC × Mat ExprC) :=
  let z : Mat ExprC := ⟨a + b, 1, fun j _ => symC ("z_" ++ toString j)⟩
  let w : Mat ExprC := ⟨a + b, 1, fun j _ => symC ("w_" ++ toString j)⟩
  match get_primitive_pth_roots_of_unity p with
  | [] => .error .assertionError
  | ω :: _ => do
      let group ← get_type_iii_gamma a b p q (constE ω)
      let phi ← get_phi_gamma_product_polarized z w group a b
      .ok (phi, z, w)

lemma get_coprime_set_head (p : ℕ) (hp : 2 ≤ p) :
    get_coprime_set p =
      1 :: ((List.range' 2 (p - 2)).filter
        (fun num => Nat.gcd num p == 1)) := by
  unfold get_coprime_set
  have h2 : p - 1 = (p - 2) + 1 := by omega
  rw [h2, List.range'_succ]
  rw [List.filter_cons_of_pos (by simp [Nat.gcd_one_left])]

/-- Claim C10: `get_primitive_pth_roots_of_unity(1)` is empty, so
`get_phi_gamma_z` and `get_phi_gamma_z_w_polarized` fail their
non-emptiness assertion at `p = 1`; for every `p >= 2` the list is
non-empty and its first element is `exp(2*pi*I/p)` (since `k = 1` is
always coprime to `p` and comes first). -/
theorem get_primitive_pth_roots_spec :
    get_primitive_pth_roots_of_unity 1 = []
    ∧ (∀ (a b : ℕ) (q : List ℕ),
        get_phi_gamma_z a b 1 q = .error .assertionError)
    ∧ (∀ (a b : ℕ) (q : List ℕ),
        get_phi_gamma_z_w_polarized a b 1 q = .error .assertionError)
    ∧ ∀ p : ℕ, 2 ≤ p →
        get_primitive_pth_roots_of_unity p ≠ []
        ∧ (get_primitive_pth_roots_of_unity p).headD 0 =
            Complex.exp ((2 * (Real.pi : ℂ) * Complex.I) / (p : ℂ)) := by
  refine ⟨rfl, fun a b q => rfl, fun a b q => rfl, ?_⟩
  intro p hp
  unfold get_primitive_pth_roots_of_unity
  rw [get_coprime_set_head p hp]
  refine ⟨by simp, ?_⟩
  rw [List.map_cons, List.headD_cons]
  congr 1
  push_cast
  ring

/-- Witness for C10 at a concrete input. -/
theorem get_primitive_pth_roots_spec_witness :
    2 ≤ 3
    ∧ get_primitive_pth_roots_of_unity 3 ≠ []
    ∧ (get_primitive_pth_roots_of_unity 3).headD 0 =
        Complex.exp ((2 * (Real.pi : ℂ) * Complex.I) / ((3 : ℕ) : ℂ)) :=
  ⟨by decide, (get_primitive_pth_roots_spec.2.2.2 3 (by decide)).1,
    (get_primitive_pth_roots_spec.2.2.2 3 (by decide)).2⟩

/-! ## Claim C1: the Hermitian-symmetry checker

`is_hermitian_symmetric_polynomial(f, z, w)` computes
`f.subs([(z, w), (w, z)])`.  sympy applies a substitution list
SEQUENTIALLY (its default, `simultaneous=False`): first every `z` becomes
`w`, then every `w` (including the ones just produced) becomes `z` — both
variables collapse to `z`.  The checker therefore compares
`conjugate(f(z, z))` with `f`.  The shape assertions on the two
`MatrixSymbol` arguments are not modeled; the symbols here are names of
equal-shaped column vectors as the claim requires. -/

/-- `is_hermitian_symmetric_polynomial(f, z, w)` as the source computes
it: sequential substitution `f.subs(z, w).subs(w, z)`, conjugation, and
the algebra engine's equality. -/
def is_hermitian_symmetric_polynomial (f : ExprC) (z w : String) : Prop :=
  conjC (subsC (subsC f z (symC w)) w (symC z)) = f

/-- A genuine simultaneous swap of the two symbols, as the spec and the
function's own `# Swap (z, w).` comment describe (and as
`check_phi_is_hermitian_symmmetric` in `experiments.py` implements via a
dummy symbol). -/
def subs_swap (e : ExprC) (x y : String) : ExprC :=
  fun v => e (fun s => if s = x then v y else if s = y then v x else v s)

/-- The Hermitian-symmetry check the spec describes: swap `z` and `w`
simultaneously, conjugate, compare with `f`. -/
def is_hermitian_symmetric_swap (f : ExprC) (z w : String) : Prop :=
  conjC (subs_swap f z w) = f

/-- Pointwise product of expressions (`sy.Mul`). -/
def mulC (e1 e2 : ExprC) : ExprC := fun v => e1 v * e2 v

/-- Claim C1, evaluated at the failing input `f = z * conjugate(w)` (with
`z`, `w` scalar components of equal-shaped column vectors): `f` is
Hermitian symmetric under the genuine simultaneous swap the claim
describes, but the function's sequential substitution collapses both
variables to `z` and returns `False`. -/
theorem is_hermitian_symmetric_polynomial_collapses_variables :
    is_hermitian_symmetric_swap (mulC (symC "z") (conjC (symC "w"))) "z" "w"
    ∧ ¬ is_hermitian_symmetric_polynomial
        (mulC (symC "z") (conjC (symC "w"))) "z" "w" := by
  constructor
  · show conjC (subs_swap (mulC (symC "z") (conjC (symC "w"))) "z" "w") =
      mulC (symC "z") (conjC (symC "w"))
    funext v
    show (starRingEnd ℂ)
        ((if ("z" : String) = "z" then v "w"
          else if ("z" : String) = "w" then v "z" else v "z")
          * (starRingEnd ℂ)
            (if ("w" : String) = "z" then v "w"
              else if ("w" : String) = "w" then v "z" else v "w"))
      = v "z" * (starRingEnd ℂ) (v "w")
    rw [if_pos rfl, if_neg (by decide), if_pos rfl]
    rw [map_mul, Complex.conj_conj]
    ring
  · intro hcontra
    have hv := congrFun hcontra (fun s => if s = "w" then Complex.I else 1)
    simp only [is_hermitian_symmetric_polynomial, conjC, subsC, symC,
      mulC] at hv
    norm_num at hv
    have hzw : ¬("z" : String) = "w" := by decide
    rw [if_neg hzw, if_neg hzw, if_neg hzw] at hv
    simp [Complex.ext_iff] at hv

/-! ## Claim C7: the generic polynomial in re/im coefficient components

The coefficient and monomial symbols here are real-valued sympy symbols,
so expressions are interpreted as functions of real valuations.  Note the
`LETTERS` dict literal in the source repeats the key `\mathfrak{m}`, so
the dict has 7 (not 8) entries and `assert arity < len(LETTERS)` admits
only `arity <= 6`. -/

/-- A symbolic expression over real-valued scalar symbols. -/
def Expr7 : Type := (String → ℝ) → ℂ

instance : CommRing Expr7 := inferInstanceAs (CommRing ((String → ℝ) → ℂ))

/-- A real-valued sympy symbol (`sy.symbols(name, real=True)`). -/
def sym7 (s : String) : Expr7 := fun v => ((v s : ℝ) : ℂ)

/-- The imaginary unit `sy.I`. -/
def iE : Expr7 := fun _ => Complex.I

/-- One `d[key] = val` step of building a Python dict literal: a repeated
key keeps its original position and overwrites the value. -/
def dictInsert {κ ν : Type} [BEq κ] : List (κ × ν) → κ → ν → List (κ × ν)
  | [], k, v => [(k, v)]
  | (k2, v2) :: rest, k, v =>
      if k2 == k then (k2, v) :: rest else (k2, v2) :: dictInsert rest k v

/-- A Python dict literal as an insertion-ordered association list. -/
def pyDict {κ ν : Type} [BEq κ] (l : List (κ × ν)) : List (κ × ν) :=
  l.foldl (fun acc kv => dictInsert acc kv.1 kv.2) []

/-- The `LETTERS` dict: complex-symbol LaTeX name to the pair of
(re, im) component letters.  The source lists the `\mathfrak{m}` entry
twice; dict semantics collapse the duplicate, leaving 7 entries. -/
def LETTERS : List (String × String × String) :=
  pyDict
    [("\\mathfrak\x7bz\x7d", "x", "y"),
     ("\\mathfrak\x7bw\x7d", "r", "s"),
     ("\\mathfrak\x7bu\x7d", "u", "v"),
     ("\\mathfrak\x7bp\x7d", "p", "q"),
     ("\\mathfrak\x7bm\x7d", "m", "n"),
     ("\\mathfrak\x7bm\x7d", "m", "n"),
     ("\\mathfrak\x7bc\x7d", "a", "b"),
     ("\\mathfrak\x7bj\x7d", "j", "k")]

/-- `get_multiindices_multivariate(arity, dim, degree)`: one copy of the
full multiindex list per variable. -/
def get_multiindices_multivariate (arity dim degree : ℕ) :
    List (List (List ℕ)) :=
  List.replicate arity (multiindices dim degree)

/-- `get_multiindex_combinations(arity, dim, degree)`: the Cartesian
product across variables, one multiindex tuple per monomial. -/
def get_multiindex_combinations (arity dim degree : ℕ) :
    List (List (List ℕ)) :=
  prodList (get_multiindices_multivariate arity dim degree)

/-- The `arity × dim` array of complex vector-component expressions
`re + I*im` built by `get_complex_vector_symbols` (component `j` of
variable `i` uses the letters of `LETTERS` entry `i` with subscript
`_{j+1}`). -/
def vector_symbols (arity dim : ℕ) : List (List Expr7) :=
  (LETTERS.take arity).map (fun kv =>
    (List.range dim).map (fun j =>
      sym7 (kv.2.1 ++ "_\x7b" ++ toString (j + 1) ++ "\x7d")
        + iE * sym7 (kv.2.2 ++ "_\x7b" ++ toString (j + 1) ++ "\x7d")))

/-- `get_complex_vector_symbols(arity, dim)`:
`assert arity < len(LETTERS)`; for `arity = 0` the subsequent
`sy.symbols("")` call raises `ValueError` (`no symbols given`).  The
`complex_map` component of the source's return value (used only by
`get_complex_polynomial`) is not modeled. -/
def get_complex_vector_symbols (arity dim : ℕ) :
    Except PyErr (List (List Expr7)) :=
  if arity < LETTERS.length then
    if arity = 0 then .error .valueError
    else .ok (vector_symbols arity dim)
  else .error .assertionError

/-- The monomial of one multiindex tuple: the double loop
`monomial *= vector[k] ** index` of `get_monomials`. -/
def monomial_from_multiindices (symbols : List (List Expr7))
    (mmis : List (List ℕ)) : Expr7 :=
  (List.range mmis.length).foldl (fun acc j =>
    acc * (List.range (mmis.getD j []).length).foldl
      (fun acc2 t =>
        acc2 * ((symbols.getD j []).getD t 1) ^ ((mmis.getD j []).getD t 0)) 1) 1

/-- `get_monomials(arity, dim, degree)`: the multiindex-tuple-keyed
monomial dict (`assert len(monom_multiindices) == len(symbols)` always
holds since both equal `arity`). -/
def get_monomials (arity dim degree : ℕ) :
    Except PyErr (List (List (List ℕ) × Expr7)) := do
  let symbols ← get_complex_vector_symbols arity dim
  .ok ((get_multiindex_combinations arity dim degree).map
    (fun mmis => (mmis, monomial_from_multiindices symbols mmis)))

/-- Python's `str` of a tuple of ints (`"(0, 1)"`, one-element tuples
render as `"(0,)"`). -/
def pyTupleRepr (mi : List ℕ) : String :=
  match mi with
  | [] => "()"
  | [x] => "(" ++ toString x ++ ",)"
  | _ => "(" ++ String.intercalate ", " (mi.map (fun t => toString t)) ++ ")"

/-- `str(multiindex).replace(", ", "\\,")`. -/
def multiindexConstructor (mi : List ℕ) : String :=
  (pyTupleRepr mi).replace ", " "\\,"

/-- The LaTeX subscript `{...\,...}` encoding a multiindex tuple. -/
def coeffSubscript (mmis : List (List ℕ)) : String :=
  "\x7b" ++ String.intercalate "\\," (mmis.map multiindexConstructor) ++ "\x7d"

/-- One coefficient symbol `a_{...} + I * b_{...}` with independent
real-valued re/im parts. -/
def coefficient_symbol (mmis : List (List ℕ)) : Expr7 :=
  sym7 ("a_" ++ coeffSubscript mmis) + iE * sym7 ("b_" ++ coeffSubscript mmis)

/-- `get_coefficient_array_for_polynomial(arity, dim, degree)`: one
complex coefficient symbol per multiindex-tuple combination. -/
def get_coefficient_array_for_polynomial (arity dim degree : ℕ) :
    List (List (List ℕ) × Expr7) :=
  (get_multiindex_combinations arity dim degree).map
    (fun mmis => (mmis, coefficient_symbol mmis))

/-- `get_polynomial_in_terms_of_re_im_components(arity, dim, degree)`:
`assert len(coeffs) == len(monoms)`, then
`poly = 1; for mmi, monomial in monoms: poly += monomial * coeffs[mmi]`
(the `assert monom_multiindices in coeffs` is the `lookup` succeeding). -/
def get_polynomial_in_terms_of_re_im_components (arity dim degree : ℕ) :
    Except PyErr Expr7 := do
  let coeffs := get_coefficient_array_for_polynomial arity dim degree
  let monoms ← get_monomials arity dim degree
  if coeffs.length = monoms.length then
    monoms.foldlM (fun poly pair =>
      match coeffs.lookup pair.1 with
      | some c => Except.ok (poly + pair.2 * c)
      | none => Except.error PyErr.assertionError) 1
  else .error .assertionError

/-- Counterexample to C7 as stated: `LETTERS` has 7 entries (duplicate
`\mathfrak{m}` key), so `arity = 7`, which the claim's "up to 8 distinct
named vector variables" admits, fails the `assert arity < len(LETTERS)`
instead of succeeding. -/
theorem get_polynomial_in_terms_of_re_im_components_arity_seven :
    LETTERS.length = 7 ∧
    get_polynomial_in_terms_of_re_im_components 7 1 0 =
      .error .assertionError :=
  ⟨rfl, rfl⟩

lemma prodList_length {β : Type} :
    ∀ ls : List (List β), (prodList ls).length = (ls.map List.length).prod := by
  intro ls
  induction ls with
  | nil => rfl
  | cons xs rest ih =>
      show (xs.flatMap (fun x => (prodList rest).map (fun t => x :: t))).length = _
      rw [List.length_flatMap]
      have hmap : (List.map
            (List.length ∘ fun x => (prodList rest).map (fun t => x :: t)) xs)
          = List.map (fun _ => (prodList rest).length) xs := by
        apply List.map_congr_left
        intro x _
        simp
      rw [hmap, List.map_const', List.sum_replicate, smul_eq_mul]
      rw [ih, List.map_cons, List.prod_cons]

lemma combinations_length (arity dim degree : ℕ) :
    (get_multiindex_combinations arity dim degree).length =
      (degree + 1) ^ (dim * arity) := by
  rw [get_multiindex_combinations, get_multiindices_multivariate,
    prodList_length, List.map_replicate]
  rw [show (multiindices dim degree).length = (degree + 1) ^ dim by
    rw [multiindices, prodList_length, List.map_replicate, List.length_range,
      List.prod_replicate]]
  rw [List.prod_replicate, ← pow_mul]

lemma lookup_pair_map {β : Type} (g : List (List ℕ) → β) :
    ∀ (l : List (List (List ℕ))) (x : List (List ℕ)), x ∈ l →
      (l.map (fun m => (m, g m))).lookup x = some (g x) := by
  intro l
  induction l with
  | nil => intro x hx; exact absurd hx (List.not_mem_nil x)
  | cons m rest ih =>
      intro x hx
      rw [List.map_cons]
      by_cases hxm : x = m
      · subst hxm
        simp [List.lookup]
      · have hbeq : (x == m) = false := beq_eq_false_iff_ne.mpr hxm
        simp only [List.lookup, hbeq]
        exact ih x (by
          rcases List.mem_cons.mp hx with h | h
          · exact absurd h hxm
          · exact h)

lemma poly_foldlM (arity dim degree : ℕ) (symbols : List (List Expr7)) :
    ∀ (l : List (List (List ℕ))) (init : Expr7),
      (∀ m ∈ l, m ∈ get_multiindex_combinations arity dim degree) →
      (l.map (fun m => (m, monomial_from_multiindices symbols m))).foldlM
        (fun poly pair =>
          match (get_coefficient_array_for_polynomial arity dim degree).lookup
              pair.1 with
          | some c => Except.ok (poly + pair.2 * c)
          | none => Except.error PyErr.assertionError) init
        = .ok (init + (l.map (fun m =>
            monomial_from_multiindices symbols m * coefficient_symbol m)).sum) := by
  intro l
  induction l with
  | nil =>
      intro init _
      show Except.ok init = _
      rw [List.map_nil, List.sum_nil, add_zero]
  | cons m rest ih =>
      intro init h
      rw [List.map_cons, List.foldlM_cons]
      have hlook :
          (get_coefficient_array_for_polynomial arity dim degree).lookup m =
            some (coefficient_symbol m) :=
        lookup_pair_map coefficient_symbol _ m (h m (List.mem_cons_self m rest))
      simp only [hlook]
      show ((rest.map (fun m => (m, monomial_from_multiindices symbols m))).foldlM
        _ (init + monomial_from_multiindices symbols m * coefficient_symbol m)) = _
      rw [ih _ (fun x hx => h x (List.mem_cons_of_mem _ hx))]
      rw [List.map_cons, List.sum_cons, add_assoc]

/-- Claim C7 (amended): for `1 <= arity <= 6` (not 8: the `LETTERS` dict
has 7 entries and the assert requires `arity < 7`), `dim >= 1` and any
`degree`, the builder succeeds and returns
`1 + sum(coefficient * monomial)` over all `(degree+1)^(dim*arity)`
multiindex-tuple combinations, each coefficient being `re + I*im` for
independent real symbols. -/
theorem get_polynomial_in_terms_of_re_im_components_spec
    (arity dim degree : ℕ) (h1 : 1 ≤ arity) (h7 : arity < 7) (hdim : 1 ≤ dim) :
    (get_multiindex_combinations arity dim degree).length =
      (degree + 1) ^ (dim * arity)
    ∧ get_polynomial_in_terms_of_re_im_components arity dim degree =
        .ok (1 + ((get_multiindex_combinations arity dim degree).map
          (fun mmis =>
            monomial_from_multiindices (vector_symbols arity dim) mmis *
              coefficient_symbol mmis)).sum) := by
  refine ⟨combinations_length arity dim degree, ?_⟩
  have hL : LETTERS.length = 7 := rfl
  have hsym : get_complex_vector_symbols arity dim =
      .ok (vector_symbols arity dim) := by
    unfold get_complex_vector_symbols
    rw [if_pos (by rw [hL]; exact h7), if_neg (by omega)]
  have hmon : get_monomials arity dim degree =
      .ok ((get_multiindex_combinations arity dim degree).map
        (fun mmis =>
          (mmis, monomial_from_multiindices (vector_symbols arity dim) mmis))) := by
    unfold get_monomials
    rw [hsym]
    rfl
  unfold get_polynomial_in_terms_of_re_im_components
  rw [hmon]
  show (if (get_coefficient_array_for_polynomial arity dim degree).length =
      ((get_multiindex_combinations arity dim degree).map
        (fun mmis =>
          (mmis, monomial_from_multiindices (vector_symbols arity dim) mmis))).length
    then _ else _) = _
  rw [if_pos (by
    rw [get_coefficient_array_for_polynomial, List.length_map, List.length_map])]
  exact poly_foldlM arity dim degree (vector_symbols arity dim)
    (get_multiindex_combinations arity dim degree) 1 (fun m hm => hm)

/-- Witness for the amended C7 at a concrete input. -/
theorem get_polynomial_in_terms_of_re_im_components_spec_witness :
    (1 ≤ 1 ∧ 1 < 7 ∧ 1 ≤ 1) ∧
    (get_multiindex_combinations 1 1 0).length = (0 + 1) ^ (1 * 1) ∧
    get_polynomial_in_terms_of_re_im_components 1 1 0 =
      .ok (1 + ((get_multiindex_combinations 1 1 0).map
        (fun mmis => monomial_from_multiindices (vector_symbols 1 1) mmis *
          coefficient_symbol mmis)).sum) :=
  ⟨⟨le_refl 1, by decide, le_refl 1⟩,
    get_polynomial_in_terms_of_re_im_components_spec 1 1 0 (le_refl 1)
      (by decide) (le_refl 1)⟩
